import Mathlib

/-
Verification development for the terminal-chat rendering pipeline
(src/terminal-chat.py). The embedding works on `List Char`; a Python
string s is modelled as s.toList. Lines fed to the styling engine and
detector never contain a newline character (the collector splits on
newlines first), but all definitions are total on arbitrary inputs.
-/

namespace TermChat

/-- Whitespace per Python's regex class and str.strip family, restricted to
the ASCII range actually produced by the program. -/
def pyWs (c : Char) : Bool :=
  c = ' ' || c = '\t' || c = '\n' || c = '\x0d' || c = '\x0b' || c = '\x0c'

/-- Python str.rstrip(): drop trailing whitespace. -/
def pyRstrip (l : List Char) : List Char :=
  (l.reverse.dropWhile pyWs).reverse

/-- Python str.strip(): drop leading and trailing whitespace. -/
def pyStrip (l : List Char) : List Char :=
  pyRstrip (l.dropWhile pyWs)

/-- ANSI bold escape, the value of ANSI_BOLD when stdout is a tty. -/
def ANSI_BOLD : List Char := '\x1b' :: '[' :: '1' :: 'm' :: []

/-- ANSI reset escape, the value of ANSI_RESET when stdout is a tty. -/
def ANSI_RESET : List Char := '\x1b' :: '[' :: '0' :: 'm' :: []

/-- ANSI gray escape, the value of ANSI_GRAY when stdout is a tty. -/
def ANSI_GRAY : List Char := '\x1b' :: '[' :: '9' :: '0' :: 'm' :: []

/-- Closing scan for the lazy group in the pattern double-star (.+?)
double-star: finds the shortest non-empty newline-free prefix of the input
that is followed by two stars, returning that prefix and the text after
the two stars. -/
def scanClose2 : List Char → Option (List Char × List Char)
  | [] => none
  | c :: rest =>
    if c = '\n' then none
    else
      match rest with
      | '*' :: '*' :: r2 => some ([c], r2)
      | _ =>
        match scanClose2 rest with
        | some (t, r) => some (c :: t, r)
        | none => none

/-- Closing scan for the lazy group in the pattern star (.+?) star:
shortest non-empty newline-free prefix followed by one star. -/
def scanClose1 : List Char → Option (List Char × List Char)
  | [] => none
  | c :: rest =>
    if c = '\n' then none
    else
      match rest with
      | '*' :: r2 => some ([c], r2)
      | _ =>
        match scanClose1 rest with
        | some (t, r) => some (c :: t, r)
        | none => none

/-- One re.sub pass for the bold pattern, wrapping each group in pre/post
(pre = post = [] models the clean-mode replacement by the bare group).
The fuel only bounds the scan; input length + 1 always suffices, and the
fuel-exhausted branch returns the remaining text unchanged. -/
def boldAux (pre post : List Char) : Nat → List Char → List Char
  | 0, l => l
  | _ + 1, [] => []
  | f + 1, c :: rest =>
    if c = '*' then
      match rest with
      | '*' :: r1 =>
        match scanClose2 r1 with
        | some (t, r) => pre ++ t ++ post ++ boldAux pre post f r
        | none => '*' :: boldAux pre post f ('*' :: r1)
      | _ => c :: boldAux pre post f rest
    else c :: boldAux pre post f rest

/-- re.sub of double-star (.+?) double-star, as in Markdown.style. -/
def boldSub (pre post l : List Char) : List Char :=
  boldAux pre post (l.length + 1) l

/-- One re.sub pass for the italic pattern star (.+?) star. -/
def italAux (pre post : List Char) : Nat → List Char → List Char
  | 0, l => l
  | _ + 1, [] => []
  | f + 1, c :: rest =>
    if c = '*' then
      match scanClose1 rest with
      | some (t, r) => pre ++ t ++ post ++ italAux pre post f r
      | none => '*' :: italAux pre post f rest
    else c :: italAux pre post f rest

/-- re.sub of star (.+?) star, as in Markdown.style. -/
def italSub (pre post l : List Char) : List Char :=
  italAux pre post (l.length + 1) l

/-- Whether a list starts with a whitespace character. -/
def headIsWs : List Char → Bool
  | c :: _ => pyWs c
  | [] => false

/-- Remove a leading blockquote marker: re.sub of anchored ws* then a
greater-than sign then one optional whitespace, replaced by nothing
(clean mode only). -/
def bqSub (l : List Char) : List Char :=
  let a := l.dropWhile pyWs
  if a.head? = some '>' then
    if headIsWs a.tail then a.tail.tail else a.tail
  else l

/-- Clean-mode heading strip: re.sub of anchored 1-to-6 hashes followed by
whitespace, replaced by nothing. The whole whitespace run after the
hashes is consumed (the pattern's ws+ is greedy). -/
def headingStrip (l : List Char) : List Char :=
  if 1 ≤ (l.takeWhile (fun c => c = '#')).length ∧
      (l.takeWhile (fun c => c = '#')).length ≤ 6 ∧
      headIsWs (l.dropWhile (fun c => c = '#')) = true then
    (l.dropWhile (fun c => c = '#')).dropWhile pyWs
  else l

/-- Rich-mode heading substitution: anchored (1-to-3 hashes) ws+ (rest),
replaced by ANSI_BOLD rest ANSI_RESET. A run of four or more hashes does
not match (after at most three hashes the pattern requires whitespace). -/
def headingRich (l : List Char) : List Char :=
  if 1 ≤ (l.takeWhile (fun c => c = '#')).length ∧
      (l.takeWhile (fun c => c = '#')).length ≤ 3 ∧
      headIsWs (l.dropWhile (fun c => c = '#')) = true then
    ANSI_BOLD ++ (l.dropWhile (fun c => c = '#')).dropWhile pyWs ++ ANSI_RESET
  else l

/-- Horizontal-rule test: re.match of ws* dash dash dash+ ws* to end. -/
def hrMatch (l : List Char) : Bool :=
  decide (3 ≤ ((l.dropWhile pyWs).takeWhile (fun c => c = '-')).length) &&
    ((l.dropWhile pyWs).dropWhile (fun c => c = '-')).all pyWs

/-- The three values of the process-wide STYLE_MODE toggle. -/
inductive StyleMode
  | rich
  | plain
  | clean
deriving DecidableEq

/-- Clean-mode branch of Markdown.style: strip bold then italic markers,
strip a blockquote marker, strip heading hashes, return the omit sentinel
(none) for horizontal rules, otherwise the rstripped text. -/
def cleanStyle (l : List Char) : Option (List Char) :=
  let t1 := boldSub [] [] l
  let t2 := italSub [] [] t1
  let t3 := bqSub t2
  let t4 := headingStrip t3
  if hrMatch t4 then none else some (pyRstrip t4)

/-- Rich-mode branch of Markdown.style (reached when TERM.ansi is true):
bold substitution, then italic, then the heading substitution. -/
def richBody (l : List Char) : List Char :=
  headingRich (italSub ANSI_GRAY ANSI_RESET (boldSub ANSI_BOLD ANSI_RESET l))

/-- Markdown.style as a function of the global STYLE_MODE and TERM.ansi.
Clean mode is checked first; otherwise text is returned untouched when
ansi is off, else the rich substitutions run. none is the omit sentinel
(Python None). -/
def Markdown.style (mode : StyleMode) (ansi : Bool) (l : List Char) : Option (List Char) :=
  match mode with
  | .clean => cleanStyle l
  | _ => if ansi then some (richBody l) else some l

/-- Consume one dash group of the separator pattern: ws* dash+ ws*.
Returns the consumed group and the rest; fails unless at least one dash
follows the leading whitespace. The rest never starts with whitespace. -/
def gConsume (s : List Char) : Option (List Char × List Char) :=
  if (s.dropWhile pyWs).head? = some '-' then
    some (s.takeWhile pyWs ++ (s.dropWhile pyWs).takeWhile (fun c => c = '-') ++
        ((s.dropWhile pyWs).dropWhile (fun c => c = '-')).takeWhile pyWs,
      ((s.dropWhile pyWs).dropWhile (fun c => c = '-')).dropWhile pyWs)
  else none

/-- Repetition (pipe group)* of the separator pattern, greedily: counts how
many pipe-prefixed dash groups are consumed and returns the rest. Fuel of
input length + 1 always suffices since each step consumes characters. -/
def sepTail : Nat → List Char → Nat × List Char
  | 0, s => (0, s)
  | f + 1, s =>
    if s.head? = some '|' then
      match gConsume s.tail with
      | some g => ((sepTail f g.2).1 + 1, (sepTail f g.2).2)
      | none => (0, s)
    else (0, s)

/-- Full match of the table-separator regex: optional pipe, a dash group,
at least one further pipe-prefixed dash group, optional pipe, end. The
character classes of the pattern are disjoint, so this deterministic
parse is equivalent to the backtracking regex. -/
def sepMatch (s : List Char) : Bool :=
  match gConsume (if s.head? = some '|' then s.tail else s) with
  | none => false
  | some g =>
    decide (1 ≤ (sepTail (g.2.length + 1) g.2).1) &&
      (decide ((sepTail (g.2.length + 1) g.2).2 = []) ||
        decide ((sepTail (g.2.length + 1) g.2).2 = ['|']))

/-- Detector states; the source uses the string tags NONE, HEADER, TABLE. -/
inductive DState
  | NONE
  | HEADER
  | TABLE
deriving DecidableEq

/-- TableState instance data: the state tag and the buffered lines. -/
structure TState where
  state : DState
  lines : List (List Char)
deriving DecidableEq

/-- Values returned by TableState.feed: the strings HOLD and NO, or the
tuples (FLUSH_BACK, old) and (FLUSH_TABLE, table, line). -/
inductive FeedResult
  | HOLD
  | NO
  | FLUSH_BACK (old : List (List Char))
  | FLUSH_TABLE (tbl : List (List Char)) (trailing : List Char)
deriving DecidableEq

/-- TableState.feed: one step of the detector, returning the action and
the successor state. -/
def TableState.feed (ts : TState) (line : List Char) : FeedResult × TState :=
  let stripped := pyStrip line
  match ts.state with
  | .NONE =>
    if stripped.contains '|' then (.HOLD, ⟨.HEADER, [line]⟩)
    else (.NO, ts)
  | .HEADER =>
    if sepMatch stripped then (.HOLD, ⟨.TABLE, ts.lines ++ [line]⟩)
    else (.FLUSH_BACK ts.lines, ⟨.NONE, []⟩)
  | .TABLE =>
    if stripped.contains '|' then (.HOLD, ⟨.TABLE, ts.lines ++ [line]⟩)
    else (.FLUSH_TABLE ts.lines line, ⟨.NONE, []⟩)

/-- TableState.flush_tail: at end of stream, flush the buffer only when
the state is TABLE; otherwise a no-op returning None. -/
def TableState.flush_tail (ts : TState) : Option (List (List Char)) × TState :=
  match ts.state with
  | .TABLE => (some ts.lines, ⟨.NONE, []⟩)
  | _ => (none, ts)

/-- Render calls emitted by the collector: Renderer.prose on a line or
Renderer.table on a block of lines. The printed bytes are a function of
this event list, so equal event lists give byte-identical output. -/
inductive Event
  | prose (line : List Char)
  | table (tlines : List (List Char))
deriving DecidableEq

/-- Dispatch of one feed result inside the collect loop: NO prints the
line as prose, HOLD prints nothing, FLUSH_BACK prints the buffered lines
then the current line, FLUSH_TABLE renders the table then the trailing
line when it is non-empty (Python truthiness of the string). -/
def dispatchEvents (r : FeedResult) (line : List Char) : List Event :=
  match r with
  | .NO => [.prose line]
  | .HOLD => []
  | .FLUSH_BACK old => old.map Event.prose ++ [.prose line]
  | .FLUSH_TABLE tbl trailing =>
    Event.table tbl :: (if trailing = [] then [] else [.prose trailing])

/-- Split a buffer at its first newline, as partial.split of one newline
with maxsplit 1; none when no newline is present. -/
def splitNl : List Char → Option (List Char × List Char)
  | [] => none
  | c :: r =>
    if c = '\n' then some ([], r)
    else
      match splitNl r with
      | some (a, b) => some (c :: a, b)
      | none => none

/-- StreamCollector state: the partial line buffer, the detector, and the
full-text accumulator. -/
structure CState where
  pending : List Char
  tstate : TState
  full : List Char
deriving DecidableEq

/-- Initial collector state. -/
def initCState : CState := ⟨[], ⟨.NONE, []⟩, []⟩

/-- Prepend one line's dispatch events to the result of draining the
remaining buffer. -/
def drainStep (ev : List Event) (d : List Event × TState × List Char) :
    List Event × TState × List Char :=
  (ev ++ d.1, d.2.1, d.2.2)

/-- Drain loop of the collector: while the buffer holds a newline, split
one line off, feed it to the detector and dispatch. Fuel of buffer length
+ 1 always suffices: each step removes at least one character. -/
def drainF : Nat → TState → List Char → List Event × TState × List Char
  | 0, ts, p => ([], ts, p)
  | f + 1, ts, p =>
    match splitNl p with
    | none => ([], ts, p)
    | some (line, rest) =>
      drainStep (dispatchEvents (TableState.feed ts line).1 line)
        (drainF f (TableState.feed ts line).2 rest)

/-- Drain with sufficient fuel. -/
def drain (ts : TState) (p : List Char) : List Event × TState × List Char :=
  drainF (p.length + 1) ts p

/-- Package a drain result and the updated full-text accumulator into the
collector's successor state. -/
def packC (full : List Char) (d : List Event × TState × List Char) :
    List Event × CState :=
  (d.1, ⟨d.2.2, d.2.1, full⟩)

/-- StreamCollector.collect, one content fragment: append to the partial
buffer and the full-text accumulator, then drain complete lines. -/
def consumeFrag (st : CState) (frag : List Char) : List Event × CState :=
  packC (st.full ++ frag) (drain st.tstate (st.pending ++ frag))

/-- Fold of consumeFrag over a fragment list, accumulating events. -/
def consumeAll : CState → List (List Char) → List Event × CState
  | st, [] => ([], st)
  | st, f :: fs =>
    ((consumeFrag st f).1 ++ (consumeAll (consumeFrag st f).2 fs).1,
      (consumeAll (consumeFrag st f).2 fs).2)

/-- End-of-stream handling shared by collect and collect_text: flush_tail
renders a table when it fires, then a partial line with non-whitespace
content is rendered as prose. -/
def finishEvents (st : CState) : List Event :=
  (match (TableState.flush_tail st.tstate).1 with
   | some tbl => [Event.table tbl]
   | none => []) ++
  (if pyStrip st.pending = [] then [] else [Event.prose st.pending])

/-- Render events of StreamCollector.collect over a stream whose content
deltas are frags, including the end-of-stream flush. -/
def collectStream (frags : List (List Char)) : List Event :=
  (consumeAll initCState frags).1 ++ finishEvents (consumeAll initCState frags).2

/-- Render events of StreamCollector.collect_text on a complete text:
the same loop run once with the whole text as the buffer, then the same
end-of-stream flush. -/
def collectText (t : List Char) : List Event :=
  (consumeFrag initCState t).1 ++ finishEvents (consumeFrag initCState t).2

/-- str.expandtabs(8) as applied by textwrap before splitting: a tab
advances the column to the next multiple of 8; carriage return and
newline reset the column. -/
def expandTabsAux : Nat → List Char → List Char
  | _, [] => []
  | col, c :: rest =>
    if c = '\t' then List.replicate (8 - col % 8) ' ' ++ expandTabsAux ((col / 8 + 1) * 8) rest
    else if c = '\n' ∨ c = '\x0d' then c :: expandTabsAux 0 rest
    else c :: expandTabsAux (col + 1) rest

/-- str.expandtabs(8) from column zero. -/
def pyExpandTabs (l : List Char) : List Char :=
  expandTabsAux 0 l

/-- Chunk splitter of textwrap: maximal runs of whitespace alternating
with maximal runs of non-whitespace. The break-on-hyphens refinement of
the stdlib splitter subdivides the word runs further at hyphens but never
changes their concatenation, which is the only property the theorems
below use of the splitter; it is omitted here. Fuel of input length + 1
always suffices and the fuel-exhausted branch keeps the remaining text as
one chunk, preserving content. -/
def splitChunksAux : Nat → List Char → List (List Char)
  | 0, l => if l = [] then [] else [l]
  | _ + 1, [] => []
  | f + 1, c :: rest =>
    (c :: rest).takeWhile (fun x => pyWs x = pyWs c) ::
      splitChunksAux f ((c :: rest).dropWhile (fun x => pyWs x = pyWs c))

/-- Chunk splitter with sufficient fuel. -/
def splitChunks (l : List Char) : List (List Char) :=
  splitChunksAux (l.length + 1) l

/-- Total character length of a chunk list. -/
def totalLen (chunks : List (List Char)) : Nat :=
  (chunks.map List.length).sum

/-- Greedy count of leading chunks that fit in the width, as the inner
loop of textwrap._wrap_chunks. -/
def fitCount (w : Nat) : Nat → List (List Char) → Nat
  | _, [] => 0
  | acc, c :: rest =>
    if acc + c.length ≤ w then fitCount w (acc + c.length) rest + 1 else 0

/-- Index of the last dash in a list, as str.rfind of a dash. -/
def rfindDash : List Char → Option Nat
  | [] => none
  | c :: rest =>
    match rfindDash rest with
    | some i => some (i + 1)
    | none => if c = '-' then some 0 else none

/-- End index chosen by textwrap._handle_long_word with break_long_words
and break_on_hyphens both true: by default break at spaceLeft; when the
chunk exceeds spaceLeft and its slice before spaceLeft has a last hyphen
at a positive index preceded by some non-hyphen, break after that
hyphen. -/
def breakEnd (c : List Char) (spaceLeft : Nat) : Nat :=
  if spaceLeft < c.length then
    match rfindDash (c.take spaceLeft) with
    | some h =>
      if 0 < h ∧ (c.take h).any (fun x => !(x = '-')) then h + 1 else spaceLeft
    | none => spaceLeft
  else spaceLeft

/-- Flatten a line's chunk list, as the join of cur_line. -/
def joinChunks (chunks : List (List Char)) : List Char :=
  match chunks with
  | [] => []
  | c :: rest => c ++ joinChunks rest

/-- Emit a line unless it is chunk-empty, as the final conditional append
of each pass of textwrap._wrap_chunks. -/
def emitLine (cur : List (List Char)) : List (List Char) :=
  if cur = [] then [] else [joinChunks cur]

/-- Outer loop of textwrap._wrap_chunks with drop_whitespace false and no
indents: greedily fill a line; when the next chunk is longer than the
width, break it via breakEnd; otherwise start a new line. Fuel of total
length + chunk count + 1 always suffices (each pass consumes a chunk or
at least one character); the fuel-exhausted branch flushes the remaining
chunks into one line and is unreachable for the fuel supplied. -/
def wrapAux (w : Nat) : Nat → List (List Char) → List (List Char)
  | 0, chunks => emitLine chunks
  | _ + 1, [] => []
  | f + 1, x :: xs =>
    match (x :: xs).drop (fitCount w 0 (x :: xs)) with
    | [] => emitLine ((x :: xs).take (fitCount w 0 (x :: xs)))
    | c :: rest2 =>
      if w < c.length then
        emitLine ((x :: xs).take (fitCount w 0 (x :: xs)) ++
            [c.take (breakEnd c (if w < 1 then 1
              else w - totalLen ((x :: xs).take (fitCount w 0 (x :: xs)))))]) ++
          wrapAux w f (c.drop (breakEnd c (if w < 1 then 1
              else w - totalLen ((x :: xs).take (fitCount w 0 (x :: xs))))) :: rest2)
      else
        emitLine ((x :: xs).take (fitCount w 0 (x :: xs))) ++ wrapAux w f (c :: rest2)

/-- textwrap.wrap of a text with replace_whitespace and drop_whitespace
false: expand tabs, split into chunks, run the wrap loop. -/
def textwrapWrap (w : Nat) (t : List Char) : List (List Char) :=
  wrapAux w
    (totalLen (splitChunks (pyExpandTabs t)) + (splitChunks (pyExpandTabs t)).length + 1)
    (splitChunks (pyExpandTabs t))

/-- Lines printed by print of textwrap.fill: fill joins the wrapped lines
with newlines, and printing the empty join still produces one blank
line. -/
def fillLines (w : Nat) (t : List Char) : List (List Char) :=
  if textwrapWrap w t = [] then [[]] else textwrapWrap w t

/-- Renderer.prose: style the rstripped line; the omit sentinel prints
nothing (none), otherwise the filled lines are printed. -/
def Renderer.prose (mode : StyleMode) (ansi : Bool) (w : Nat) (line : List Char) :
    Option (List (List Char)) :=
  match Markdown.style mode ansi (pyRstrip line) with
  | none => none
  | some t => some (fillLines w t)

/-- Strip of the characters comma, percent and whitespace from a cell, as
re.sub of the class comma-percent-ws by nothing. -/
def stripNumChars (cell : List Char) : List Char :=
  cell.filter (fun c => !(c = ',' || c = '%' || pyWs c))

/-- ASCII digit test, the fragment of str.isdigit the program can meet. -/
def pyIsDigit (c : Char) : Bool :=
  '0' ≤ c && c ≤ '9'

/-- str.isdigit: non-empty and all digits. -/
def isdigitStr (s : List Char) : Bool :=
  !s.isEmpty && s.all pyIsDigit

/-- Numeric test of one cell in Renderer.table: strip commas, percent
signs and whitespace, remove every dot, then str.isdigit. -/
def numericCell (cell : List Char) : Bool :=
  isdigitStr ((stripNumChars cell).filter (fun c => !(c = '.')))

/-- is_numeric_column of Renderer.table: every row has a cell at the
index and that cell passes the numeric test. -/
def is_numeric_column (rows : List (List (List Char))) (idx : Nat) : Bool :=
  rows.all (fun r => decide (idx < r.length) && numericCell (r.getD idx []))

/-- Column alignment as assigned in both passes of Renderer.table. -/
inductive Align
  | left
  | right
deriving DecidableEq

/-- Alignment of a column: right for numeric columns, left otherwise. -/
def colAlign (rows : List (List (List Char))) (idx : Nat) : Align :=
  if is_numeric_column rows idx then .right else .left

/-- Modelled from the spec: a cell value parses as a non-negative decimal
number, read as a digit string with at most one decimal point and at
least one digit. Used only to compare the spec's wording against the
code's numeric test. -/
def specNonnegDecimal (s : List Char) : Bool :=
  !s.isEmpty && s.all (fun c => pyIsDigit c || c = '.') &&
    decide ((s.filter (fun c => c = '.')).length ≤ 1) && s.any pyIsDigit

/-- Detector invariant of C10: the buffered line list is non-empty exactly
when the state is not idle. -/
def TInv (ts : TState) : Prop :=
  ts.lines = [] ↔ ts.state = .NONE

/-- Declarative dash group of the separator pattern: optional whitespace,
one or more dashes, optional whitespace. -/
def isDashGroup (g : List Char) : Prop :=
  ∃ a d b, g = a ++ d ++ b ∧ (∀ c ∈ a, pyWs c = true) ∧
    (∀ c ∈ b, pyWs c = true) ∧ d ≠ [] ∧ (∀ c ∈ d, c = '-')

/-- Declarative core of the separator pattern: k dash groups joined by
single pipes. -/
inductive SepGroups : List Char → Nat → Prop
  | one {g} : isDashGroup g → SepGroups g 1
  | cons {g r k} : isDashGroup g → SepGroups r k → SepGroups (g ++ '|' :: r) (k + 1)

/-- Declarative reading of the separator regex as the code implements it:
two or more pipe-separated dash groups, optionally bordered by a single
leading and/or trailing pipe. -/
def SepShape (s : List Char) : Prop :=
  ∃ k core, 2 ≤ k ∧ SepGroups core k ∧
    (s = core ∨ s = '|' :: core ∨ s = core ++ ['|'] ∨ s = '|' :: core ++ ['|'])

/-- Declarative reading of the code's per-cell numeric test: after the
comma-percent-whitespace strip the cell holds at least one digit and
nothing but digits and dots. -/
def cellDigitsAndDots (cell : List Char) : Prop :=
  (∃ c ∈ stripNumChars cell, pyIsDigit c = true) ∧
    (∀ c ∈ stripNumChars cell, pyIsDigit c = true ∨ c = '.')

/-- Declarative numeric-column condition: every row is long enough and
its cell at the index passes cellDigitsAndDots. -/
def numericColumnSpec (rows : List (List (List Char))) (idx : Nat) : Prop :=
  ∀ r ∈ rows, idx < r.length ∧ cellDigitsAndDots (r.getD idx [])

theorem takeWhile_append_all {α} (p : α → Bool) :
    ∀ (a b : List α), (∀ c ∈ a, p c = true) → (a ++ b).takeWhile p = a ++ b.takeWhile p
  | [], _, _ => by simp
  | c :: a, b, h => by
    have hc : p c = true := h c (List.mem_cons_self c a)
    simp only [List.cons_append, List.takeWhile_cons, hc, if_true]
    rw [takeWhile_append_all p a b (fun x hx => h x (List.mem_cons_of_mem c hx))]

theorem dropWhile_append_all {α} (p : α → Bool) :
    ∀ (a b : List α), (∀ c ∈ a, p c = true) → (a ++ b).dropWhile p = b.dropWhile p
  | [], _, _ => by simp
  | c :: a, b, h => by
    have hc : p c = true := h c (List.mem_cons_self c a)
    simp only [List.cons_append, List.dropWhile_cons, hc, if_true]
    exact dropWhile_append_all p a b (fun x hx => h x (List.mem_cons_of_mem c hx))

theorem takeWhile_cons_neg {α} (p : α → Bool) {c : α} (l : List α) (h : p c = false) :
    (c :: l).takeWhile p = [] := by
  simp [List.takeWhile_cons, h]

theorem dropWhile_cons_neg {α} (p : α → Bool) {c : α} (l : List α) (h : p c = false) :
    (c :: l).dropWhile p = c :: l := by
  simp [List.dropWhile_cons, h]

theorem takeWhile_stop {α} (p : α → Bool) :
    ∀ (a b : List α), a.dropWhile p ≠ [] → (a ++ b).takeWhile p = a.takeWhile p
  | [], _, h => absurd rfl h
  | c :: a, b, h => by
    by_cases hc : p c = true
    · have h2 : a.dropWhile p ≠ [] := by
        simpa [List.dropWhile_cons, hc] using h
      simp only [List.cons_append, List.takeWhile_cons, hc, if_true]
      rw [takeWhile_stop p a b h2]
    · have hc2 : p c = false := by simpa using hc
      simp [List.takeWhile_cons, hc2]

theorem dropWhile_stop {α} (p : α → Bool) :
    ∀ (a b : List α), a.dropWhile p ≠ [] → (a ++ b).dropWhile p = a.dropWhile p ++ b
  | [], _, h => absurd rfl h
  | c :: a, b, h => by
    by_cases hc : p c = true
    · have h2 : a.dropWhile p ≠ [] := by
        simpa [List.dropWhile_cons, hc] using h
      simp only [List.cons_append, List.dropWhile_cons, hc, if_true]
      exact dropWhile_stop p a b h2
    · have hc2 : p c = false := by simpa using hc
      simp [List.dropWhile_cons, hc2]

theorem dropWhile_idem {α} (p : α → Bool) :
    ∀ (l : List α), (l.dropWhile p).dropWhile p = l.dropWhile p
  | [] => rfl
  | c :: l => by
    by_cases hc : p c = true
    · simp only [List.dropWhile_cons, hc, if_true]
      exact dropWhile_idem p l
    · have hc2 : p c = false := by simpa using hc
      simp [List.dropWhile_cons, hc2]

theorem pyWs_ne {c d : Char} (h : pyWs c = true) (hd : pyWs d = false) : ¬ c = d := by
  intro e
  rw [e, hd] at h
  cases h

theorem pyIsDigit_ne {c d : Char} (h : pyIsDigit c = true) (hd : pyIsDigit d = false) :
    ¬ c = d := by
  intro e
  rw [e, hd] at h
  cases h

theorem boldAux_id (pre post : List Char) :
    ∀ (f : Nat) (l : List Char), (∀ c ∈ l, ¬ c = '*') → boldAux pre post f l = l
  | 0, _, _ => rfl
  | _ + 1, [], _ => rfl
  | f + 1, c :: rest, h => by
    have hc : ¬ c = '*' := h c (List.mem_cons_self c rest)
    simp only [boldAux, if_neg hc]
    rw [boldAux_id pre post f rest (fun x hx => h x (List.mem_cons_of_mem c hx))]

theorem italAux_id (pre post : List Char) :
    ∀ (f : Nat) (l : List Char), (∀ c ∈ l, ¬ c = '*') → italAux pre post f l = l
  | 0, _, _ => rfl
  | _ + 1, [], _ => rfl
  | f + 1, c :: rest, h => by
    have hc : ¬ c = '*' := h c (List.mem_cons_self c rest)
    simp only [italAux, if_neg hc]
    rw [italAux_id pre post f rest (fun x hx => h x (List.mem_cons_of_mem c hx))]

theorem boldSub_id (pre post l : List Char) (h : ∀ c ∈ l, ¬ c = '*') :
    boldSub pre post l = l :=
  boldAux_id pre post (l.length + 1) l h

theorem italSub_id (pre post l : List Char) (h : ∀ c ∈ l, ¬ c = '*') :
    italSub pre post l = l :=
  italAux_id pre post (l.length + 1) l h

theorem takeWhile_head_ne {c : Char} (l : List Char) (x : Char) (h : ¬ c = x) :
    (c :: l).takeWhile (fun y => y = x) = [] := by
  simp [List.takeWhile_cons, h]

theorem bqSub_id (l : List Char) (h : ¬ (l.dropWhile pyWs).head? = some '>') :
    bqSub l = l := by
  simp [bqSub, h]

theorem headingStrip_id (l : List Char) (h : ¬ l.head? = some '#') :
    headingStrip l = l := by
  match l with
  | [] => rfl
  | c :: rest =>
    have hc : ¬ c = '#' := by
      intro e
      exact h (by rw [e]; rfl)
    simp [headingStrip, takeWhile_head_ne rest '#' hc]

theorem headingRich_id (l : List Char) (h : ¬ l.head? = some '#') :
    headingRich l = l := by
  match l with
  | [] => rfl
  | c :: rest =>
    have hc : ¬ c = '#' := by
      intro e
      exact h (by rw [e]; rfl)
    simp [headingRich, takeWhile_head_ne rest '#' hc]

theorem takeWhile_all {α} (p : α → Bool) (a : List α) (h : ∀ c ∈ a, p c = true) :
    a.takeWhile p = a := by
  have := takeWhile_append_all p a [] h
  simpa using this

theorem ws_not_dash {c : Char} (h : pyWs c = true) : ¬ c = '-' :=
  pyWs_ne h (by decide)

theorem takeWhile_dash_ws (w : List Char) (hw : ∀ c ∈ w, pyWs c = true) :
    w.takeWhile (fun c => c = '-') = [] := by
  match w with
  | [] => rfl
  | c :: r =>
    have : ¬ c = '-' := ws_not_dash (hw c (List.mem_cons_self c r))
    simp [List.takeWhile_cons, this]

theorem dropWhile_dash_ws (w : List Char) (hw : ∀ c ∈ w, pyWs c = true) :
    w.dropWhile (fun c => c = '-') = w := by
  match w with
  | [] => rfl
  | c :: r =>
    have : ¬ c = '-' := ws_not_dash (hw c (List.mem_cons_self c r))
    simp [List.dropWhile_cons, this]

theorem hrMatch_head_ne (l : List Char) (h : ¬ (l.dropWhile pyWs).head? = some '-') :
    hrMatch l = false := by
  unfold hrMatch
  match ha : l.dropWhile pyWs with
  | [] => rfl
  | c :: rest =>
    have hc : ¬ c = '-' := by
      intro e
      rw [ha] at h
      exact h (by rw [e]; rfl)
    simp [takeWhile_head_ne rest '-' hc]

theorem hrMatch_shape (a d b : List Char) (ha : ∀ c ∈ a, pyWs c = true)
    (hd : ∀ c ∈ d, c = '-') (h3 : 3 ≤ d.length) (hb : ∀ c ∈ b, pyWs c = true) :
    hrMatch (a ++ d ++ b) = true := by
  match d, h3 with
  | e :: d2, h3 =>
    have he : e = '-' := hd e (List.mem_cons_self e d2)
    have hdall : ∀ c ∈ e :: d2, (fun c => decide (c = '-')) c = true := by
      intro c hc
      simp [hd c hc]
    have h1 : (a ++ (e :: d2) ++ b).dropWhile pyWs = (e :: d2) ++ b := by
      rw [List.append_assoc, dropWhile_append_all pyWs a _ ha]
      exact dropWhile_cons_neg pyWs _ (by rw [he]; decide)
    have h2 : ((e :: d2) ++ b).takeWhile (fun c => c = '-') = e :: d2 := by
      rw [takeWhile_append_all _ _ _ hdall, takeWhile_dash_ws b hb, List.append_nil]
    have h3' : ((e :: d2) ++ b).dropWhile (fun c => c = '-') = b := by
      rw [dropWhile_append_all _ _ _ hdall, dropWhile_dash_ws b hb]
    have h4 : decide (3 ≤ (e :: d2).length) = true := by
      exact decide_eq_true h3
    have h5 : b.all pyWs = true := List.all_eq_true.mpr hb
    simp only [hrMatch]
    rw [h1, h2, h3', h4, h5]
    rfl

theorem hrMatch_append_ws (v w : List Char) (hw : ∀ c ∈ w, pyWs c = true) :
    hrMatch (v ++ w) = hrMatch v := by
  match hv : v.dropWhile pyWs with
  | [] =>
    have hva : ∀ c ∈ v, pyWs c = true := List.dropWhile_eq_nil_iff.mp hv
    have h1 : (v ++ w).dropWhile pyWs = [] := by
      rw [dropWhile_append_all pyWs v w hva]
      exact List.dropWhile_eq_nil_iff.mpr hw
    simp only [hrMatch]
    rw [h1, hv]
  | x :: xs =>
    have hvne : v.dropWhile pyWs ≠ [] := by rw [hv]; intro h; cases h
    have h1 : (v ++ w).dropWhile pyWs = (x :: xs) ++ w := by
      rw [dropWhile_stop pyWs v w hvne, hv]
    simp only [hrMatch]
    rw [h1, hv]
    match hA : (x :: xs).dropWhile (fun c => c = '-') with
    | [] =>
      have hall : ∀ c ∈ x :: xs, (fun c => decide (c = '-')) c = true :=
        List.dropWhile_eq_nil_iff.mp hA
      have h2 : ((x :: xs) ++ w).takeWhile (fun c => c = '-') = x :: xs := by
        rw [takeWhile_append_all _ _ _ hall, takeWhile_dash_ws w hw, List.append_nil]
      have h3 : ((x :: xs) ++ w).dropWhile (fun c => c = '-') = w := by
        rw [dropWhile_append_all _ _ _ hall, dropWhile_dash_ws w hw]
      have h5 : w.all pyWs = true := List.all_eq_true.mpr hw
      rw [h2, h3, takeWhile_all _ _ hall, h5, List.all_nil]
    | z :: zs =>
      have hAne : (x :: xs).dropWhile (fun c => c = '-') ≠ [] := by
        rw [hA]; intro h; cases h
      have h2 : ((x :: xs) ++ w).takeWhile (fun c => c = '-') =
          (x :: xs).takeWhile (fun c => c = '-') :=
        takeWhile_stop _ _ _ hAne
      have h3 : ((x :: xs) ++ w).dropWhile (fun c => c = '-') = (z :: zs) ++ w := by
        rw [dropWhile_stop _ _ _ hAne, hA]
      have h5 : w.all pyWs = true := List.all_eq_true.mpr hw
      rw [h2, h3, List.all_append, h5, Bool.and_true]

theorem pyRstrip_decomp (l : List Char) :
    ∃ w, l = pyRstrip l ++ w ∧ ∀ c ∈ w, pyWs c = true := by
  refine ⟨(l.reverse.takeWhile pyWs).reverse, ?_, ?_⟩
  · conv_lhs =>
      rw [← l.reverse_reverse, ← List.takeWhile_append_dropWhile pyWs l.reverse,
        List.reverse_append]
    rfl
  · intro c hc
    rw [List.mem_reverse] at hc
    exact List.mem_takeWhile_imp hc

theorem hrMatch_rstrip (l : List Char) : hrMatch (pyRstrip l) = hrMatch l := by
  obtain ⟨w, hl, hw⟩ := pyRstrip_decomp l
  conv_rhs => rw [hl]
  rw [hrMatch_append_ws _ w hw]

theorem pyRstrip_idem (l : List Char) : pyRstrip (pyRstrip l) = pyRstrip l := by
  simp [pyRstrip, List.reverse_reverse, dropWhile_idem]

theorem pyRstrip_shape (a d b : List Char) (hd : ∀ c ∈ d, c = '-') (hne : d ≠ [])
    (hb : ∀ c ∈ b, pyWs c = true) : pyRstrip (a ++ d ++ b) = a ++ d := by
  match d, hne with
  | e :: d2, _ =>
    have hrev : (a ++ (e :: d2) ++ b).reverse =
        b.reverse ++ ((e :: d2).reverse ++ a.reverse) := by
      simp [List.reverse_append]
    have hbr : ∀ c ∈ b.reverse, pyWs c = true := by
      intro c hc
      exact hb c (List.mem_reverse.mp hc)
    match hrd : (e :: d2).reverse with
    | [] => exact absurd hrd (by simp)
    | y :: ys =>
      have hy : y = '-' := by
        have : y ∈ (e :: d2).reverse := by rw [hrd]; exact List.mem_cons_self y ys
        exact hd y (List.mem_reverse.mp this)
      unfold pyRstrip
      rw [hrev, dropWhile_append_all pyWs _ _ hbr, hrd, List.cons_append,
        dropWhile_cons_neg pyWs _ (by rw [hy]; decide), ← List.cons_append, ← hrd]
      simp [List.reverse_append]

theorem style_rich_eq (l : List Char) :
    Markdown.style .rich true l = some (richBody l) := rfl

theorem style_plain_eq (l : List Char) :
    Markdown.style .plain false l = some l := rfl

theorem style_clean_eq (ansi : Bool) (l : List Char) :
    Markdown.style .clean ansi l = cleanStyle l := rfl

theorem prose_none (mode : StyleMode) (ansi : Bool) (w : Nat) (line : List Char)
    (h : Markdown.style mode ansi (pyRstrip line) = none) :
    Renderer.prose mode ansi w line = none := by
  unfold Renderer.prose
  rw [h]

theorem prose_some (mode : StyleMode) (ansi : Bool) (w : Nat) (line t : List Char)
    (h : Markdown.style mode ansi (pyRstrip line) = some t) :
    Renderer.prose mode ansi w line = some (fillLines w t) := by
  unfold Renderer.prose
  rw [h]

theorem forall_mem_append3 {α} {P : α → Prop} {a d b : List α}
    (h1 : ∀ c ∈ a, P c) (h2 : ∀ c ∈ d, P c) (h3 : ∀ c ∈ b, P c) :
    ∀ c ∈ a ++ d ++ b, P c := by
  intro c hc
  rcases List.mem_append.mp hc with h | h
  · rcases List.mem_append.mp h with h | h
    exacts [h1 c h, h2 c h]
  · exact h3 c h

theorem head_ne_of_all {l : List Char} {x : Char} (h : ∀ c ∈ l, ¬ c = x) :
    ¬ l.head? = some x := by
  match l with
  | [] => intro hh; cases hh
  | c :: r =>
    intro hh
    exact h c (List.mem_cons_self c r) (Option.some.inj hh)

theorem dropWhile_ws_shape (a d b : List Char) (ha : ∀ c ∈ a, pyWs c = true)
    (hd : ∀ c ∈ d, c = '-') (hne : d ≠ []) :
    (a ++ d ++ b).dropWhile pyWs = d ++ b := by
  match d, hne with
  | e :: d2, _ =>
    have he : e = '-' := hd e (List.mem_cons_self e d2)
    rw [List.append_assoc, dropWhile_append_all pyWs a _ ha]
    exact dropWhile_cons_neg pyWs _ (by rw [he]; decide)

theorem cleanStyle_hr (a d b : List Char) (ha : ∀ c ∈ a, pyWs c = true)
    (hd : ∀ c ∈ d, c = '-') (h3 : 3 ≤ d.length) (hb : ∀ c ∈ b, pyWs c = true) :
    cleanStyle (a ++ d ++ b) = none := by
  have hne : d ≠ [] := by
    intro e
    rw [e] at h3
    cases h3
  have hstar : ∀ c ∈ a ++ d ++ b, ¬ c = '*' :=
    forall_mem_append3 (fun c hc => pyWs_ne (ha c hc) (by decide))
      (fun c hc => by rw [hd c hc]; decide)
      (fun c hc => pyWs_ne (hb c hc) (by decide))
  have e1 : boldSub [] [] (a ++ d ++ b) = a ++ d ++ b := boldSub_id _ _ _ hstar
  have e2 : italSub [] [] (a ++ d ++ b) = a ++ d ++ b := italSub_id _ _ _ hstar
  have hdw : (a ++ d ++ b).dropWhile pyWs = d ++ b := dropWhile_ws_shape a d b ha hd hne
  have e3 : bqSub (a ++ d ++ b) = a ++ d ++ b := by
    apply bqSub_id
    rw [hdw]
    apply head_ne_of_all
    intro c hc
    rcases List.mem_append.mp hc with h | h
    · rw [hd c h]; decide
    · exact pyWs_ne (hb c h) (by decide)
  have e4 : headingStrip (a ++ d ++ b) = a ++ d ++ b := by
    apply headingStrip_id
    apply head_ne_of_all
    exact forall_mem_append3 (fun c hc => pyWs_ne (ha c hc) (by decide))
      (fun c hc => by rw [hd c hc]; decide)
      (fun c hc => pyWs_ne (hb c hc) (by decide))
  have e5 : hrMatch (a ++ d ++ b) = true := hrMatch_shape a d b ha hd h3 hb
  show (if hrMatch (headingStrip (bqSub (italSub [] [] (boldSub [] [] (a ++ d ++ b)))))
      then (none : Option (List Char))
      else some (pyRstrip (headingStrip (bqSub (italSub [] [] (boldSub [] [] (a ++ d ++ b))))))) =
      none
  rw [e1, e2, e3, e4, e5]
  rfl

theorem richBody_hr (a d b : List Char) (ha : ∀ c ∈ a, pyWs c = true)
    (hd : ∀ c ∈ d, c = '-') (hb : ∀ c ∈ b, pyWs c = true) :
    richBody (a ++ d ++ b) = a ++ d ++ b := by
  have hstar : ∀ c ∈ a ++ d ++ b, ¬ c = '*' :=
    forall_mem_append3 (fun c hc => pyWs_ne (ha c hc) (by decide))
      (fun c hc => by rw [hd c hc]; decide)
      (fun c hc => pyWs_ne (hb c hc) (by decide))
  have e1 : boldSub ANSI_BOLD ANSI_RESET (a ++ d ++ b) = a ++ d ++ b :=
    boldSub_id _ _ _ hstar
  have e2 : italSub ANSI_GRAY ANSI_RESET (a ++ d ++ b) = a ++ d ++ b :=
    italSub_id _ _ _ hstar
  have e4 : headingRich (a ++ d ++ b) = a ++ d ++ b := by
    apply headingRich_id
    apply head_ne_of_all
    exact forall_mem_append3 (fun c hc => pyWs_ne (ha c hc) (by decide))
      (fun c hc => by rw [hd c hc]; decide)
      (fun c hc => pyWs_ne (hb c hc) (by decide))
  rw [richBody, e1, e2, e4]

/-- C8: a line consisting solely of three or more dashes with optional
surrounding whitespace is mapped to the omit sentinel by Clean-mode
styling, so Renderer.prose prints nothing for it, while Plain mode and
Rich mode with color capability pass the line through unchanged. -/
theorem hr_suppression (a d b : List Char) (w : Nat)
    (ha : ∀ c ∈ a, pyWs c = true) (hd : ∀ c ∈ d, c = '-') (h3 : 3 ≤ d.length)
    (hb : ∀ c ∈ b, pyWs c = true) :
    Markdown.style .clean false (a ++ d ++ b) = none ∧
    Renderer.prose .clean false w (a ++ d ++ b) = none ∧
    Markdown.style .plain false (a ++ d ++ b) = some (a ++ d ++ b) ∧
    Markdown.style .rich true (a ++ d ++ b) = some (a ++ d ++ b) := by
  have hne : d ≠ [] := by
    intro e
    rw [e] at h3
    cases h3
  have hclean : cleanStyle (a ++ d ++ b) = none := cleanStyle_hr a d b ha hd h3 hb
  refine ⟨hclean, ?_, rfl, ?_⟩
  · have hrs : pyRstrip (a ++ d ++ b) = a ++ d := pyRstrip_shape a d b hd hne hb
    have hclean2 : cleanStyle (a ++ d) = none := by
      have h0 := cleanStyle_hr a d [] ha hd h3 (by intro c hc; cases hc)
      rwa [List.append_nil] at h0
    apply prose_none
    rw [style_clean_eq, hrs]
    exact hclean2
  · rw [style_rich_eq, richBody_hr a d b ha hd hb]

/-- C8 witness: the concrete line of three dashes. -/
theorem hr_suppression_witness :
    Markdown.style .clean false ([] ++ ['-', '-', '-'] ++ []) = none ∧
    Renderer.prose .clean false 80 ([] ++ ['-', '-', '-'] ++ []) = none ∧
    Markdown.style .plain false ([] ++ ['-', '-', '-'] ++ []) =
      some ([] ++ ['-', '-', '-'] ++ []) ∧
    Markdown.style .rich true ([] ++ ['-', '-', '-'] ++ []) =
      some ([] ++ ['-', '-', '-'] ++ []) :=
  hr_suppression [] ['-', '-', '-'] [] 80 (by decide) (by decide) (by decide) (by decide)

theorem pyWs_cases {c : Char} (h : pyWs c = true) :
    c = ' ' ∨ c = '\t' ∨ c = '\n' ∨ c = '\x0d' ∨ c = '\x0b' ∨ c = '\x0c' := by
  simp only [pyWs, Bool.or_eq_true, decide_eq_true_eq] at h
  tauto

theorem digit_not_ws {c : Char} (h : pyIsDigit c = true) : pyWs c = false := by
  cases hw : pyWs c
  · rfl
  · rcases pyWs_cases hw with rfl | rfl | rfl | rfl | rfl | rfl <;>
      exact absurd h (by decide)

theorem hash_line_take (n : Nat) (rest : List Char) :
    (List.replicate n '#' ++ ' ' :: rest).takeWhile (fun c => c = '#') =
      List.replicate n '#' := by
  have hall : ∀ c ∈ List.replicate n '#', (fun c => decide (c = '#')) c = true := by
    intro c hc
    simp [List.eq_of_mem_replicate hc]
  rw [takeWhile_append_all _ _ _ hall, takeWhile_cons_neg _ _ (by decide), List.append_nil]

theorem hash_line_drop (n : Nat) (rest : List Char) :
    (List.replicate n '#' ++ ' ' :: rest).dropWhile (fun c => c = '#') = ' ' :: rest := by
  have hall : ∀ c ∈ List.replicate n '#', (fun c => decide (c = '#')) c = true := by
    intro c hc
    simp [List.eq_of_mem_replicate hc]
  rw [dropWhile_append_all _ _ _ hall, dropWhile_cons_neg _ _ (by decide)]

theorem ws_drop_space (rest : List Char) (hws : rest.dropWhile pyWs = rest) :
    (' ' :: rest).dropWhile pyWs = rest := by
  rw [List.dropWhile_cons]
  simp [pyWs, hws]

theorem headingRich_hash (n : Nat) (rest : List Char) (h1 : 1 ≤ n) (h3 : n ≤ 3)
    (hws : rest.dropWhile pyWs = rest) :
    headingRich (List.replicate n '#' ++ ' ' :: rest) = ANSI_BOLD ++ rest ++ ANSI_RESET := by
  unfold headingRich
  rw [hash_line_take, hash_line_drop, List.length_replicate]
  rw [if_pos ⟨h1, h3, rfl⟩, ws_drop_space rest hws]

theorem headingRich_hash_big (n : Nat) (rest : List Char) (h4 : 4 ≤ n) :
    headingRich (List.replicate n '#' ++ ' ' :: rest) =
      List.replicate n '#' ++ ' ' :: rest := by
  unfold headingRich
  rw [hash_line_take, List.length_replicate]
  rw [if_neg]
  intro hc
  omega

theorem headingStrip_hash (n : Nat) (rest : List Char) (h1 : 1 ≤ n) (h6 : n ≤ 6)
    (hws : rest.dropWhile pyWs = rest) :
    headingStrip (List.replicate n '#' ++ ' ' :: rest) = rest := by
  unfold headingStrip
  rw [hash_line_take, hash_line_drop, List.length_replicate]
  rw [if_pos ⟨h1, h6, rfl⟩, ws_drop_space rest hws]

theorem hash_line_facts (n : Nat) (rest : List Char) (h1 : 1 ≤ n) :
    (List.replicate n '#' ++ ' ' :: rest).dropWhile pyWs =
      List.replicate n '#' ++ ' ' :: rest ∧
    (List.replicate n '#' ++ ' ' :: rest).head? = some '#' := by
  match n, h1 with
  | m + 1, _ =>
    rw [List.replicate_succ, List.cons_append]
    exact ⟨dropWhile_cons_neg pyWs _ (by decide), rfl⟩

/-- C3 counterexample: a line of four hashes and a space is returned
unchanged by Rich-mode styling with color; the hashes are not dropped and
the remainder is not rendered bold. -/
theorem rich_heading_4hash_cx :
    Markdown.style .rich true (String.toList "#### x") =
      some (String.toList "#### x") ∧
    ¬ Markdown.style .rich true (String.toList "#### x") =
      some (ANSI_BOLD ++ String.toList "x" ++ ANSI_RESET) := by decide

/-- C3 amended: Rich-mode styling with color drops the hash markers and
bolds the remainder only for headings of one to three hashes; four to six
hashes pass through Rich unchanged; Clean-mode styling drops one to six
hash markers and keeps the remaining text (rstripped). The side
hypotheses keep the remainder free of other markup so only the heading
rule fires. -/
theorem heading_style_amended (n : Nat) (rest : List Char) (h1 : 1 ≤ n) (h6 : n ≤ 6)
    (hstar : ∀ c ∈ rest, ¬ c = '*') (hws : rest.dropWhile pyWs = rest)
    (hhr : hrMatch rest = false) :
    (n ≤ 3 → Markdown.style .rich true (List.replicate n '#' ++ ' ' :: rest) =
      some (ANSI_BOLD ++ rest ++ ANSI_RESET)) ∧
    (4 ≤ n → Markdown.style .rich true (List.replicate n '#' ++ ' ' :: rest) =
      some (List.replicate n '#' ++ ' ' :: rest)) ∧
    Markdown.style .clean false (List.replicate n '#' ++ ' ' :: rest) =
      some (pyRstrip rest) := by
  have hstarl : ∀ c ∈ List.replicate n '#' ++ ' ' :: rest, ¬ c = '*' := by
    intro c hc
    rcases List.mem_append.mp hc with h | h
    · rw [List.eq_of_mem_replicate h]; decide
    · rcases List.mem_cons.mp h with h | h
      · rw [h]; decide
      · exact hstar c h
  refine ⟨?_, ?_, ?_⟩
  · intro h3
    rw [style_rich_eq, richBody, boldSub_id _ _ _ hstarl, italSub_id _ _ _ hstarl,
      headingRich_hash n rest h1 h3 hws]
  · intro h4
    rw [style_rich_eq, richBody, boldSub_id _ _ _ hstarl, italSub_id _ _ _ hstarl,
      headingRich_hash_big n rest h4]
  · have hd1 := hash_line_facts n rest h1
    have e3 : bqSub (List.replicate n '#' ++ ' ' :: rest) =
        List.replicate n '#' ++ ' ' :: rest := by
      apply bqSub_id
      rw [hd1.1, hd1.2]
      decide
    have e4 : headingStrip (List.replicate n '#' ++ ' ' :: rest) = rest :=
      headingStrip_hash n rest h1 h6 hws
    rw [style_clean_eq]
    show (if hrMatch (headingStrip (bqSub (italSub [] []
          (boldSub [] [] (List.replicate n '#' ++ ' ' :: rest)))))
        then (none : Option (List Char))
        else some (pyRstrip (headingStrip (bqSub (italSub [] []
          (boldSub [] [] (List.replicate n '#' ++ ' ' :: rest))))))) =
      some (pyRstrip rest)
    rw [boldSub_id _ _ _ hstarl, italSub_id _ _ _ hstarl, e3, e4, hhr]
    rfl

/-- C3 amended witness: the concrete heading of two hashes. -/
theorem heading_style_amended_witness :
    (2 ≤ 3 → Markdown.style .rich true (List.replicate 2 '#' ++ ' ' :: String.toList "Hi") =
      some (ANSI_BOLD ++ String.toList "Hi" ++ ANSI_RESET)) ∧
    (4 ≤ 2 → Markdown.style .rich true (List.replicate 2 '#' ++ ' ' :: String.toList "Hi") =
      some (List.replicate 2 '#' ++ ' ' :: String.toList "Hi")) ∧
    Markdown.style .clean false (List.replicate 2 '#' ++ ' ' :: String.toList "Hi") =
      some (pyRstrip (String.toList "Hi")) :=
  heading_style_amended 2 (String.toList "Hi") (by decide) (by decide) (by decide)
    (by decide) (by decide)

/-- C4 counterexample: the numbered-list line is returned unchanged by
Rich-mode styling with color, and contains no escape character, so no
part of it (in particular not the leading marker) was rendered bold. -/
theorem numbered_not_bolded_cx :
    Markdown.style .rich true (String.toList "1. hello") =
      some (String.toList "1. hello") ∧
    ¬ '\x1b' ∈ String.toList "1. hello" := by decide

/-- C4 amended: the StyleEngine gives a leading numbered-list marker no
special treatment in any mode: with no other markup on the line, Rich and
Plain return the line unchanged and Clean merely rstrips it. -/
theorem numbered_marker_amended (ds r : List Char) (hne : ds ≠ [])
    (hdig : ∀ c ∈ ds, pyIsDigit c = true)
    (hstar : ∀ c ∈ ds ++ '.' :: r, ¬ c = '*') :
    Markdown.style .rich true (ds ++ '.' :: r) = some (ds ++ '.' :: r) ∧
    Markdown.style .plain false (ds ++ '.' :: r) = some (ds ++ '.' :: r) ∧
    Markdown.style .clean false (ds ++ '.' :: r) = some (pyRstrip (ds ++ '.' :: r)) := by
  match ds, hne with
  | e :: ds2, _ =>
    have he : pyIsDigit e = true := hdig e (List.mem_cons_self e ds2)
    have hdw : ((e :: ds2) ++ '.' :: r).dropWhile pyWs = (e :: ds2) ++ '.' :: r := by
      rw [List.cons_append]
      exact dropWhile_cons_neg pyWs _ (digit_not_ws he)
    have hhead : ((e :: ds2) ++ '.' :: r).head? = some e := by
      rw [List.cons_append]; rfl
    have hne_hash : ¬ ((e :: ds2) ++ '.' :: r).head? = some '#' := by
      rw [hhead]
      intro hh
      exact pyIsDigit_ne he (by decide) (Option.some.inj hh)
    have e4r : headingRich ((e :: ds2) ++ '.' :: r) = (e :: ds2) ++ '.' :: r :=
      headingRich_id _ hne_hash
    have e4c : headingStrip ((e :: ds2) ++ '.' :: r) = (e :: ds2) ++ '.' :: r :=
      headingStrip_id _ hne_hash
    have e3 : bqSub ((e :: ds2) ++ '.' :: r) = (e :: ds2) ++ '.' :: r := by
      apply bqSub_id
      rw [hdw, hhead]
      intro hh
      exact pyIsDigit_ne he (by decide) (Option.some.inj hh)
    have e5 : hrMatch ((e :: ds2) ++ '.' :: r) = false := by
      apply hrMatch_head_ne
      rw [hdw, hhead]
      intro hh
      exact pyIsDigit_ne he (by decide) (Option.some.inj hh)
    refine ⟨?_, rfl, ?_⟩
    · rw [style_rich_eq, richBody, boldSub_id _ _ _ hstar, italSub_id _ _ _ hstar, e4r]
    · rw [style_clean_eq]
      show (if hrMatch (headingStrip (bqSub (italSub [] []
            (boldSub [] [] ((e :: ds2) ++ '.' :: r)))))
          then (none : Option (List Char))
          else some (pyRstrip (headingStrip (bqSub (italSub [] []
            (boldSub [] [] ((e :: ds2) ++ '.' :: r))))))) =
        some (pyRstrip ((e :: ds2) ++ '.' :: r))
      rw [boldSub_id _ _ _ hstar, italSub_id _ _ _ hstar, e3, e4c, e5]
      rfl

/-- C4 amended witness: the concrete numbered line. -/
theorem numbered_marker_amended_witness :
    Markdown.style .rich true (['1'] ++ '.' :: String.toList " hello") =
      some (['1'] ++ '.' :: String.toList " hello") ∧
    Markdown.style .plain false (['1'] ++ '.' :: String.toList " hello") =
      some (['1'] ++ '.' :: String.toList " hello") ∧
    Markdown.style .clean false (['1'] ++ '.' :: String.toList " hello") =
      some (pyRstrip (['1'] ++ '.' :: String.toList " hello")) :=
  numbered_marker_amended ['1'] (String.toList " hello") (by decide) (by decide) (by decide)

/-- C9 counterexample: Clean-mode styling strips one blockquote marker
per application, so a doubled marker makes a second application change
the text again: styling once gives one text, styling that result gives a
different text. -/
theorem clean_not_idempotent_cx :
    Markdown.style .clean false (String.toList ">> hi") = some (String.toList "> hi") ∧
    Markdown.style .clean false (String.toList "> hi") = some (String.toList "hi") ∧
    ¬ String.toList "> hi" = String.toList "hi" := by decide

/-- C9 amended: Clean-mode styling is idempotent on an output that
carries no further strippable marker: no star anywhere, no blockquote
marker after leading whitespace, no leading hash. Without these
conditions a second application can strip again. -/
theorem clean_idem_amended (x y : List Char)
    (h : Markdown.style .clean false x = some y)
    (hstar : ∀ c ∈ y, ¬ c = '*')
    (hbq : ¬ (y.dropWhile pyWs).head? = some '>')
    (hhd : ¬ y.head? = some '#') :
    Markdown.style .clean false y = some y := by
  rw [style_clean_eq] at h ⊢
  have h' : (if hrMatch (headingStrip (bqSub (italSub [] [] (boldSub [] [] x))))
      then (none : Option (List Char))
      else some (pyRstrip (headingStrip (bqSub (italSub [] [] (boldSub [] [] x)))))) =
      some y := h
  by_cases hm : hrMatch (headingStrip (bqSub (italSub [] [] (boldSub [] [] x)))) = true
  · rw [if_pos hm] at h'
    cases h'
  · have hm' : hrMatch (headingStrip (bqSub (italSub [] [] (boldSub [] [] x)))) = false := by
      simpa using hm
    rw [if_neg hm] at h'
    have hy : pyRstrip (headingStrip (bqSub (italSub [] [] (boldSub [] [] x)))) = y :=
      Option.some.inj h'
    have e5 : hrMatch y = false := by
      rw [← hy, hrMatch_rstrip]
      exact hm'
    have e6 : pyRstrip y = y := by
      rw [← hy, pyRstrip_idem]
    have e1 : boldSub [] [] y = y := boldSub_id _ _ _ hstar
    have e2 : italSub [] [] y = y := italSub_id _ _ _ hstar
    have e3 : bqSub y = y := bqSub_id y hbq
    have e4 : headingStrip y = y := headingStrip_id y hhd
    show (if hrMatch (headingStrip (bqSub (italSub [] [] (boldSub [] [] y))))
        then (none : Option (List Char))
        else some (pyRstrip (headingStrip (bqSub (italSub [] [] (boldSub [] [] y)))))) =
      some y
    rw [e1, e2, e3, e4, e5, e6]
    rfl

/-- C9 amended witness: clean output of a bold line is stable under a
second clean pass. -/
theorem clean_idem_amended_witness :
    Markdown.style .clean false (String.toList "hi there") =
      some (String.toList "hi there") :=
  clean_idem_amended (String.toList "**hi** there") (String.toList "hi there")
    (by decide) (by decide) (by decide) (by decide)

theorem numericCell_iff (cell : List Char) :
    numericCell cell = true ↔ cellDigitsAndDots cell := by
  unfold numericCell isdigitStr cellDigitsAndDots
  constructor
  · intro h
    rw [Bool.and_eq_true] at h
    obtain ⟨hne, hall⟩ := h
    rw [List.all_eq_true] at hall
    have hne2 : (stripNumChars cell).filter (fun c => !(c = '.')) ≠ [] := by
      intro he
      rw [he] at hne
      cases hne
    obtain ⟨c, hc⟩ := List.exists_mem_of_ne_nil _ hne2
    constructor
    · exact ⟨c, (List.mem_filter.mp hc).1, hall c hc⟩
    · intro c' hc'
      by_cases hdot : c' = '.'
      · exact Or.inr hdot
      · refine Or.inl (hall c' ?_)
        rw [List.mem_filter]
        exact ⟨hc', by simp [hdot]⟩
  · rintro ⟨⟨c, hcv, hcd⟩, hall⟩
    rw [Bool.and_eq_true]
    have hcne : ¬ c = '.' := pyIsDigit_ne hcd (by decide)
    have hcm : c ∈ (stripNumChars cell).filter (fun c => !(c = '.')) := by
      rw [List.mem_filter]
      exact ⟨hcv, by simp [hcne]⟩
    constructor
    · have := List.ne_nil_of_mem hcm
      simp only [Bool.not_eq_true']
      rw [List.isEmpty_eq_false]
      exact this
    · rw [List.all_eq_true]
      intro c' hc'
      obtain ⟨hc'v, hne⟩ := List.mem_filter.mp hc'
      rcases hall c' hc'v with hd | hdot
      · exact hd
      · rw [hdot] at hne
        simp at hne

theorem is_numeric_column_iff (rows : List (List (List Char))) (idx : Nat) :
    is_numeric_column rows idx = true ↔ numericColumnSpec rows idx := by
  unfold is_numeric_column numericColumnSpec
  rw [List.all_eq_true]
  constructor
  · intro h r hr
    have := h r hr
    rw [Bool.and_eq_true, decide_eq_true_eq] at this
    exact ⟨this.1, (numericCell_iff _).mp this.2⟩
  · intro h r hr
    rw [Bool.and_eq_true, decide_eq_true_eq]
    exact ⟨(h r hr).1, (numericCell_iff _).mpr (h r hr).2⟩

/-- C7 counterexample: the cell 1.2.3 is not a non-negative decimal after
stripping, yet the code classifies its single-cell column numeric and
right-aligns it, contradicting the claim that a column containing any
non-numeric cell is left-aligned. -/
theorem numeric_multi_dot_cx :
    colAlign [[String.toList "1.2.3"]] 0 = .right ∧
    specNonnegDecimal (stripNumChars (String.toList "1.2.3")) = false := by decide

/-- C7 amended: a column is right-aligned exactly when for every data row
the cell at the index exists and, after stripping commas, percent signs
and whitespace, consists only of digits and dots with at least one digit
(several dots are accepted, so 1.2.3 counts as numeric); all other
columns are left-aligned. -/
theorem numeric_column_alignment (rows : List (List (List Char))) (idx : Nat) :
    (colAlign rows idx = .right ↔ numericColumnSpec rows idx) ∧
    (colAlign rows idx = .left ↔ ¬ numericColumnSpec rows idx) := by
  unfold colAlign
  by_cases h : is_numeric_column rows idx = true
  · rw [if_pos h]
    have hs := (is_numeric_column_iff rows idx).mp h
    exact ⟨⟨fun _ => hs, fun _ => rfl⟩,
      ⟨fun hl => absurd hl (by decide), fun hn => absurd hs hn⟩⟩
  · rw [if_neg h]
    have hn : ¬ numericColumnSpec rows idx :=
      fun hs => h ((is_numeric_column_iff rows idx).mpr hs)
    exact ⟨⟨fun hl => absurd hl (by decide), fun hs => absurd hs hn⟩,
      ⟨fun _ => hn, fun _ => rfl⟩⟩

/-- C7 amended witness: the alignment characterization at a concrete
two-row table column. -/
theorem numeric_column_alignment_witness :
    (colAlign [[String.toList "12"], [String.toList "3.5%"]] 0 = .right ↔
      numericColumnSpec [[String.toList "12"], [String.toList "3.5%"]] 0) ∧
    (colAlign [[String.toList "12"], [String.toList "3.5%"]] 0 = .left ↔
      ¬ numericColumnSpec [[String.toList "12"], [String.toList "3.5%"]] 0) :=
  numeric_column_alignment [[String.toList "12"], [String.toList "3.5%"]] 0

/-- C10: starting anywhere the buffer-state invariant holds, feed
preserves it; a Hold action leaves a non-empty buffer in a non-idle
state, and any other action resets the detector to the idle state with an
empty buffer. -/
theorem detector_invariant (ts : TState) (line : List Char) (h : TInv ts) :
    TInv (TableState.feed ts line).2 ∧
    ((TableState.feed ts line).1 = .HOLD →
      ¬ (TableState.feed ts line).2.lines = [] ∧
      ¬ (TableState.feed ts line).2.state = .NONE) ∧
    (¬ (TableState.feed ts line).1 = .HOLD →
      (TableState.feed ts line).2.lines = [] ∧
      (TableState.feed ts line).2.state = .NONE) := by
  obtain ⟨st, lns⟩ := ts
  cases st
  case NONE =>
    have hl : lns = [] := h.mpr rfl
    subst hl
    by_cases hc : '|' ∈ pyStrip line
    · simp [TableState.feed, hc, TInv]
    · simp [TableState.feed, hc, TInv]
  case HEADER =>
    by_cases hc : sepMatch (pyStrip line) = true
    · simp [TableState.feed, hc, TInv]
    · have hc' : sepMatch (pyStrip line) = false := by simpa using hc
      simp [TableState.feed, hc', TInv]
  case TABLE =>
    by_cases hc : '|' ∈ pyStrip line
    · simp [TableState.feed, hc, TInv]
    · simp [TableState.feed, hc, TInv]

/-- C10 witness: the invariant step at the initial detector and a plain
line. -/
theorem detector_invariant_witness :
    TInv (TableState.feed ⟨.NONE, []⟩ (String.toList "plain")).2 ∧
    ((TableState.feed ⟨.NONE, []⟩ (String.toList "plain")).1 = .HOLD →
      ¬ (TableState.feed ⟨.NONE, []⟩ (String.toList "plain")).2.lines = [] ∧
      ¬ (TableState.feed ⟨.NONE, []⟩ (String.toList "plain")).2.state = .NONE) ∧
    (¬ (TableState.feed ⟨.NONE, []⟩ (String.toList "plain")).1 = .HOLD →
      (TableState.feed ⟨.NONE, []⟩ (String.toList "plain")).2.lines = [] ∧
      (TableState.feed ⟨.NONE, []⟩ (String.toList "plain")).2.state = .NONE) :=
  detector_invariant ⟨.NONE, []⟩ (String.toList "plain") ⟨fun _ => rfl, fun _ => rfl⟩

theorem splitNl_of_no_newline {p : List Char} (h : ¬ '\n' ∈ p) : splitNl p = none := by
  induction p with
  | nil => rfl
  | cons c r ih =>
    have hc : ¬ c = '\n' := fun e => h (by rw [e]; exact List.mem_cons_self _ _)
    have hr : ¬ '\n' ∈ r := fun hm => h (List.mem_cons_of_mem _ hm)
    simp [splitNl, hc, ih hr]

theorem splitNl_some (p : List Char) : ∀ (a b : List Char), splitNl p = some (a, b) →
    p = a ++ '\n' :: b ∧ ¬ '\n' ∈ a := by
  induction p with
  | nil => intro a b h; cases h
  | cons c r ih =>
    intro a b h
    by_cases hc : c = '\n'
    · subst hc
      rw [show splitNl ('\n' :: r) = some ([], r) from by simp [splitNl]] at h
      have h2 := Option.some.inj h
      have h3 : ([] : List Char) = a := congrArg Prod.fst h2
      have h4 : r = b := congrArg Prod.snd h2
      subst h3
      subst h4
      exact ⟨rfl, by simp⟩
    · have hsp : splitNl (c :: r) =
          match splitNl r with
          | some (a', b') => some (c :: a', b')
          | none => none := by
        simp [splitNl, hc]
      rw [hsp] at h
      rcases hr : splitNl r with _ | ⟨a', b'⟩
      · rw [hr] at h; cases h
      · rw [hr] at h
        have h2 := Option.some.inj h
        have h3 : c :: a' = a := congrArg Prod.fst h2
        have h4 : b' = b := congrArg Prod.snd h2
        subst h3
        subst h4
        obtain ⟨hp, hm⟩ := ih a' b' hr
        refine ⟨by rw [hp]; rfl, ?_⟩
        intro hmm
        rcases List.mem_cons.mp hmm with h5 | h5
        · exact hc h5.symm
        · exact hm h5

theorem splitNl_append (a b : List Char) (ha : ¬ '\n' ∈ a) :
    splitNl (a ++ '\n' :: b) = some (a, b) := by
  induction a with
  | nil => simp [splitNl]
  | cons c r ih =>
    have hc : ¬ c = '\n' := fun e => ha (by rw [e]; exact List.mem_cons_self _ _)
    have hr : ¬ '\n' ∈ r := fun hm => ha (List.mem_cons_of_mem _ hm)
    simp [splitNl, hc, ih hr]

theorem splitNl_some_length {p a b : List Char} (h : splitNl p = some (a, b)) :
    b.length < p.length := by
  obtain ⟨hp, _⟩ := splitNl_some p a b h
  rw [hp]
  simp [List.length_append]
  omega

theorem drainF_fuel (f : Nat) : ∀ (g : Nat) (ts : TState) (p : List Char),
    p.length < f → p.length < g → drainF f ts p = drainF g ts p := by
  induction f with
  | zero =>
    intro g ts p hf
    exact absurd hf (Nat.not_lt_zero _)
  | succ f ih =>
    intro g ts p hf hg
    match g, hg with
    | g + 1, hg =>
      rcases hs : splitNl p with _ | ⟨line, rest⟩
      · simp only [drainF, hs]
      · have hlen : rest.length < p.length := splitNl_some_length hs
        simp only [drainF, hs]
        rw [ih g (TableState.feed ts line).2 rest (by omega) (by omega)]

theorem drain_none {ts : TState} {p : List Char} (h : splitNl p = none) :
    drain ts p = ([], ts, p) := by
  unfold drain
  simp only [drainF, h]

theorem drain_cons {ts : TState} {p line rest : List Char}
    (h : splitNl p = some (line, rest)) :
    drain ts p = drainStep (dispatchEvents (TableState.feed ts line).1 line)
      (drain (TableState.feed ts line).2 rest) := by
  unfold drain
  conv_lhs => simp only [drainF, h]
  rw [drainF_fuel p.length (rest.length + 1) (TableState.feed ts line).2 rest
    (splitNl_some_length h) (Nat.lt_succ_self _)]

theorem drainF_no_newline (f : Nat) : ∀ (ts : TState) (p : List Char), p.length < f →
    splitNl (drainF f ts p).2.2 = none := by
  induction f with
  | zero =>
    intro ts p hf
    exact absurd hf (Nat.not_lt_zero _)
  | succ f ih =>
    intro ts p hf
    simp only [drainF]
    rcases hs : splitNl p with _ | ⟨line, rest⟩
    · exact hs
    · have hlen : rest.length < p.length := splitNl_some_length hs
      exact ih (TableState.feed ts line).2 rest (by omega)

theorem drain_no_newline (ts : TState) (p : List Char) :
    splitNl (drain ts p).2.2 = none :=
  drainF_no_newline (p.length + 1) ts p (Nat.lt_succ_self _)

theorem drain_append (n : Nat) : ∀ (ts : TState) (p q : List Char), p.length ≤ n →
    drain ts (p ++ q) =
      ((drain ts p).1 ++ (drain (drain ts p).2.1 ((drain ts p).2.2 ++ q)).1,
        (drain (drain ts p).2.1 ((drain ts p).2.2 ++ q)).2) := by
  induction n with
  | zero =>
    intro ts p q hp
    have hp0 : p = [] := List.length_eq_zero.mp (Nat.le_zero.mp hp)
    subst hp0
    rw [drain_none (show splitNl ([] : List Char) = none from rfl)]
    simp
  | succ n ih =>
    intro ts p q hp
    rcases hs : splitNl p with _ | ⟨line, rest⟩
    · rw [drain_none hs]
      rfl
    · obtain ⟨hpe, hline⟩ := splitNl_some p line rest hs
      have hsq : splitNl (p ++ q) = some (line, rest ++ q) := by
        rw [hpe, List.append_assoc, List.cons_append]
        exact splitNl_append line (rest ++ q) hline
      have hlen : rest.length < p.length := splitNl_some_length hs
      rw [drain_cons hsq, drain_cons hs,
        ih (TableState.feed ts line).2 rest q (by omega)]
      simp [drainStep, List.append_assoc]

theorem consume_append (st : CState) (a b : List Char) :
    consumeFrag st (a ++ b) =
      ((consumeFrag st a).1 ++ (consumeFrag (consumeFrag st a).2 b).1,
        (consumeFrag (consumeFrag st a).2 b).2) := by
  obtain ⟨pend, ts, full⟩ := st
  have h1 : pend ++ (a ++ b) = (pend ++ a) ++ b := (List.append_assoc _ _ _).symm
  show packC (full ++ (a ++ b)) (drain ts (pend ++ (a ++ b))) = _
  rw [h1, drain_append (pend ++ a).length ts (pend ++ a) b (Nat.le_refl _)]
  simp [consumeFrag, packC, List.append_assoc]

theorem consumeFrag_pending (st : CState) (frag : List Char) :
    splitNl (consumeFrag st frag).2.pending = none := by
  obtain ⟨pend, ts, full⟩ := st
  exact drain_no_newline ts (pend ++ frag)

theorem consumeAll_join : ∀ (frags : List (List Char)) (st : CState),
    splitNl st.pending = none →
    consumeAll st frags = consumeFrag st (joinChunks frags)
  | [], st, h => by
    obtain ⟨pend, ts, full⟩ := st
    show ([], ⟨pend, ts, full⟩) = packC (full ++ joinChunks []) (drain ts (pend ++ joinChunks []))
    show ([], (⟨pend, ts, full⟩ : CState)) = packC (full ++ []) (drain ts (pend ++ []))
    rw [List.append_nil, List.append_nil, drain_none h]
    rfl
  | f :: fs, st, h => by
    have hrec := consumeAll_join fs (consumeFrag st f).2 (consumeFrag_pending st f)
    show ((consumeFrag st f).1 ++ (consumeAll (consumeFrag st f).2 fs).1,
        (consumeAll (consumeFrag st f).2 fs).2) = _
    rw [hrec]
    show _ = consumeFrag st (f ++ joinChunks fs)
    rw [consume_append st f (joinChunks fs)]

/-- C1: streaming equivalence. Feeding any list of content fragments to
the collector and finishing produces exactly the render events (hence
byte-identical output) of feeding the concatenated text in one piece to
the whole-text collect_text path and finishing. -/
theorem streaming_equivalence (frags : List (List Char)) :
    collectStream frags = collectText (joinChunks frags) := by
  unfold collectStream collectText
  rw [consumeAll_join frags initCState rfl]

/-- C2 counterexample: a pipe-containing header line followed by a
newline leaves the detector in the HeaderCandidate state; at end of
stream the whole-text path renders nothing at all, so the buffered line
is silently dropped instead of being rendered as prose. -/
theorem eof_header_dropped_cx :
    collectText (String.toList "| a | b |\n") = [] := by decide

/-- C2 amended: at end of stream the collector flushes the buffered lines
as a table only when the detector is in the InTable state, and renders
the pending partial line as prose exactly when it has non-whitespace
content; lines buffered in the HeaderCandidate state are dropped
(flush_tail is a no-op outside InTable). -/
theorem eof_flush_amended (pend : List Char) (ts : TState) (full : List Char) :
    finishEvents ⟨pend, ts, full⟩ =
      (match ts.state with
       | .TABLE => [Event.table ts.lines]
       | _ => []) ++
      (if pyStrip pend = [] then [] else [Event.prose pend]) := by
  obtain ⟨st, lns⟩ := ts
  cases st <;> rfl

theorem isDashGroup_ne_nil {g : List Char} (h : isDashGroup g) : g ≠ [] := by
  obtain ⟨a, d, b, rfl, _, _, hdne, _⟩ := h
  intro he
  obtain ⟨h1, h2⟩ := List.append_eq_nil.mp he
  obtain ⟨h3, h4⟩ := List.append_eq_nil.mp h1
  exact hdne h4

theorem dashGroup_head {g : List Char} (h : isDashGroup g) (x : List Char) :
    ¬ (g ++ x).head? = some '|' := by
  obtain ⟨a, d, b, rfl, ha, hb, hdne, hd⟩ := h
  match a, d, hdne with
  | [], e :: d2, _ =>
    intro hh
    have he : e = '-' := hd e (List.mem_cons_self _ _)
    have he2 : e = '|' := Option.some.inj hh
    rw [he] at he2
    cases he2
  | c :: a2, _, _ =>
    intro hh
    have hc : pyWs c = true := ha c (List.mem_cons_self _ _)
    have hc2 : c = '|' := Option.some.inj hh
    exact pyWs_ne hc (by decide) hc2

theorem gConsume_sound {s g r : List Char} (h : gConsume s = some (g, r)) :
    s = g ++ r ∧ isDashGroup g ∧ r.dropWhile pyWs = r := by
  unfold gConsume at h
  by_cases hh : (s.dropWhile pyWs).head? = some '-'
  · rw [if_pos hh] at h
    have h2 := Option.some.inj h
    have hg := congrArg Prod.fst h2
    have hr := congrArg Prod.snd h2
    simp only at hg hr
    subst hg
    subst hr
    refine ⟨?_, ?_, dropWhile_idem _ _⟩
    · conv_lhs => rw [← List.takeWhile_append_dropWhile pyWs s]
      rw [List.append_assoc, List.append_assoc]
      congr 1
      conv_lhs =>
        rw [← List.takeWhile_append_dropWhile (fun c => decide (c = '-')) (s.dropWhile pyWs)]
      congr 1
      conv_lhs =>
        rw [← List.takeWhile_append_dropWhile pyWs
          ((s.dropWhile pyWs).dropWhile (fun c => c = '-'))]
    · refine ⟨s.takeWhile pyWs, (s.dropWhile pyWs).takeWhile (fun c => c = '-'),
        ((s.dropWhile pyWs).dropWhile (fun c => c = '-')).takeWhile pyWs, rfl,
        ?_, ?_, ?_, ?_⟩
      · intro c hc
        exact List.mem_takeWhile_imp hc
      · intro c hc
        exact List.mem_takeWhile_imp hc
      · rcases he : s.dropWhile pyWs with _ | ⟨c, t⟩
        · rw [he] at hh
          cases hh
        · rw [he] at hh
          have hc : c = '-' := Option.some.inj hh
          rw [List.takeWhile_cons]
          simp [hc]
      · intro c hc
        have := List.mem_takeWhile_imp hc
        simpa using this
  · rw [if_neg hh] at h
    cases h

theorem gConsume_complete {g r : List Char} (hg : isDashGroup g)
    (hr : r = [] ∨ r.head? = some '|') :
    gConsume (g ++ r) = some (g, r) := by
  obtain ⟨a, d, b, rfl, ha, hb, hdne, hd⟩ := hg
  match d, hdne with
  | e :: d2, _ =>
    have he : e = '-' := hd e (List.mem_cons_self _ _)
    have hdall : ∀ c ∈ e :: d2, (fun c => decide (c = '-')) c = true := by
      intro c hc
      simp [hd c hc]
    have hrt : ∀ (q : Char → Bool), q '|' = false →
        r.takeWhile q = [] ∧ r.dropWhile q = r := by
      intro q hq
      rcases hr with rfl | hh
      · exact ⟨rfl, rfl⟩
      · rcases r with _ | ⟨c, t⟩
        · cases hh
        · have hc : c = '|' := Option.some.inj hh
          subst hc
          exact ⟨takeWhile_cons_neg q t hq, dropWhile_cons_neg q t hq⟩
    have hbr_t : (b ++ r).takeWhile (fun c => c = '-') = [] := by
      match b with
      | [] => exact (hrt _ (by decide)).1
      | c :: t =>
        exact takeWhile_cons_neg _ _ (by simp [ws_not_dash (hb c (List.mem_cons_self _ _))])
    have hbr_d : (b ++ r).dropWhile (fun c => c = '-') = b ++ r := by
      match b with
      | [] => exact (hrt _ (by decide)).2
      | c :: t =>
        exact dropWhile_cons_neg _ _ (by simp [ws_not_dash (hb c (List.mem_cons_self _ _))])
    have h1 : ((a ++ (e :: d2) ++ b) ++ r).dropWhile pyWs = (e :: d2) ++ (b ++ r) := by
      rw [List.append_assoc, List.append_assoc, dropWhile_append_all pyWs a _ ha]
      exact dropWhile_cons_neg pyWs _ (by rw [he]; decide)
    have h0 : ((a ++ (e :: d2) ++ b) ++ r).takeWhile pyWs = a := by
      rw [List.append_assoc, List.append_assoc, takeWhile_append_all pyWs a _ ha,
        List.cons_append, takeWhile_cons_neg pyWs _ (by rw [he]; decide), List.append_nil]
    have h2 : ((e :: d2) ++ (b ++ r)).takeWhile (fun c => c = '-') = e :: d2 := by
      rw [takeWhile_append_all _ _ _ hdall, hbr_t, List.append_nil]
    have h3 : ((e :: d2) ++ (b ++ r)).dropWhile (fun c => c = '-') = b ++ r := by
      rw [dropWhile_append_all _ _ _ hdall, hbr_d]
    have h4 : (b ++ r).takeWhile pyWs = b := by
      rw [takeWhile_append_all pyWs b _ hb, (hrt pyWs (by decide)).1, List.append_nil]
    have h5 : (b ++ r).dropWhile pyWs = r := by
      rw [dropWhile_append_all pyWs b _ hb]
      exact (hrt pyWs (by decide)).2
    have hhd : (((a ++ (e :: d2) ++ b) ++ r).dropWhile pyWs).head? = some '-' := by
      rw [h1, List.cons_append, he]
      rfl
    unfold gConsume
    rw [if_pos hhd, h0, h1, h2, h3, h4, h5]

theorem sepTail_sound (f : Nat) : ∀ (s : List Char) (k : Nat) (rest : List Char),
    s.length < f → sepTail f s = (k, rest) →
    (k = 0 ∧ rest = s) ∨
    (∃ core, SepGroups core k ∧ s = '|' :: (core ++ rest)) := by
  induction f with
  | zero =>
    intro s k rest hf
    exact absurd hf (Nat.not_lt_zero _)
  | succ f ih =>
    intro s k rest hf hst
    by_cases hh : s.head? = some '|'
    · rcases s with _ | ⟨c, t⟩
      · cases hh
      · have hc : c = '|' := Option.some.inj hh
        subst hc
        simp only [sepTail, if_pos hh] at hst
        rcases hgc : gConsume ('|' :: t).tail with _ | ⟨g, r2⟩
        · simp only [hgc] at hst
          have h1 := congrArg Prod.fst hst
          have h2 := congrArg Prod.snd hst
          simp only at h1 h2
          exact Or.inl ⟨h1.symm, h2.symm⟩
        · simp only [hgc] at hst
          have h1 := congrArg Prod.fst hst
          have h2 := congrArg Prod.snd hst
          simp only at h1 h2
          obtain ⟨hs_eq, hgrp, _⟩ := gConsume_sound hgc
          have hgne : g ≠ [] := isDashGroup_ne_nil hgrp
          have hglen : 1 ≤ g.length := by

            rcases g with _ | ⟨x, y⟩
            · exact absurd rfl hgne
            · simp
          have hlen : r2.length < f := by
            have ht : ('|' :: t).tail = t := rfl
            rw [ht] at hs_eq
            have : t.length = g.length + r2.length := by
              rw [hs_eq, List.length_append]
            simp at hf
            omega
          rcases ih r2 (sepTail f r2).1 (sepTail f r2).2 hlen rfl with
            ⟨hk0, hr0⟩ | ⟨core, hsg, hr2⟩
          · refine Or.inr ⟨g, ?_, ?_⟩
            · rw [← h1, hk0]
              exact SepGroups.one hgrp
            · rw [← h2, hr0]
              have ht : ('|' :: t).tail = t := rfl
              rw [ht] at hs_eq
              rw [hs_eq]
          · refine Or.inr ⟨g ++ '|' :: core, ?_, ?_⟩
            · rw [← h1]
              exact SepGroups.cons hgrp hsg
            · have ht : ('|' :: t).tail = t := rfl
              rw [ht] at hs_eq
              rw [h2] at hr2
              rw [hs_eq, hr2, List.append_assoc, List.cons_append]
    · rcases s with _ | ⟨c, t⟩
      · simp only [sepTail] at hst
        have h1 := congrArg Prod.fst hst
        have h2 := congrArg Prod.snd hst
        simp only at h1 h2
        exact Or.inl ⟨h1.symm, h2.symm⟩
      · simp only [sepTail, if_neg hh] at hst
        have h1 := congrArg Prod.fst hst
        have h2 := congrArg Prod.snd hst
        simp only at h1 h2
        exact Or.inl ⟨h1.symm, h2.symm⟩

theorem sepTail_stop (f : Nat) (rest : List Char) (hr : rest = [] ∨ rest = ['|']) :
    sepTail f rest = (0, rest) := by
  rcases hr with rfl | rfl
  · cases f with
    | zero => rfl
    | succ f2 => simp [sepTail]
  · cases f with
    | zero => rfl
    | succ f2 =>
      simp only [sepTail]
      rw [if_pos (show (['|'] : List Char).head? = some '|' from rfl)]
      have hgc : gConsume (['|'] : List Char).tail = none := by
        unfold gConsume
        rw [if_neg]
        intro hh
        cases hh
      rw [hgc]

theorem sepTail_complete {core : List Char} {k : Nat} (hsg : SepGroups core k) :
    ∀ (rest : List Char) (f : Nat), (rest = [] ∨ rest = ['|']) →
    ('|' :: core ++ rest).length ≤ f →
    sepTail f ('|' :: (core ++ rest)) = (k, rest) := by
  induction hsg with
  | @one g hg =>
    intro rest f hr hf
    match f, hf with
    | f + 1, hf =>
      have hgc : gConsume (g ++ rest) = some (g, rest) := by
        apply gConsume_complete hg
        rcases hr with rfl | rfl
        · exact Or.inl rfl
        · exact Or.inr rfl
      simp only [sepTail]
      rw [if_pos (show ('|' :: (g ++ rest)).head? = some '|' from rfl)]
      rw [show ('|' :: (g ++ rest)).tail = g ++ rest from rfl]
      simp only [hgc]
      rw [sepTail_stop f rest hr]
  | @cons g r k' hg hsg2 ih =>
    intro rest f hrr hf
    match f, hf with
    | f + 1, hf =>
      have hre : (g ++ '|' :: r) ++ rest = g ++ ('|' :: (r ++ rest)) := by
        rw [List.append_assoc, List.cons_append]
      have hgc : gConsume (g ++ ('|' :: (r ++ rest))) = some (g, '|' :: (r ++ rest)) :=
        gConsume_complete hg (Or.inr rfl)
      have hglen : 1 ≤ g.length := by
        rcases hg2 : g with _ | ⟨x, y⟩
        · exact absurd hg2 (isDashGroup_ne_nil hg)
        · simp
      have hlen : ('|' :: r ++ rest).length ≤ f := by
        simp only [List.length_cons, List.length_append] at hf ⊢
        omega
      simp only [sepTail]
      rw [if_pos (show ('|' :: ((g ++ '|' :: r) ++ rest)).head? = some '|' from rfl)]
      rw [show ('|' :: ((g ++ '|' :: r) ++ rest)).tail = (g ++ '|' :: r) ++ rest from rfl,
        hre]
      simp only [hgc]
      rw [ih rest f hrr hlen]

theorem sepMatch_iff (s : List Char) : sepMatch s = true ↔ SepShape s := by
  constructor
  · intro h
    unfold sepMatch at h
    rcases hgc : gConsume (if s.head? = some '|' then s.tail else s) with _ | ⟨g, r⟩
    · rw [hgc] at h
      cases h
    · rw [hgc] at h
      simp only [Bool.and_eq_true, Bool.or_eq_true, decide_eq_true_eq] at h
      obtain ⟨hk1, hrest⟩ := h
      obtain ⟨hs0, hgrp, _⟩ := gConsume_sound hgc
      rcases sepTail_sound (r.length + 1) r (sepTail (r.length + 1) r).1
          (sepTail (r.length + 1) r).2 (Nat.lt_succ_self _) rfl with
        ⟨hk0, _⟩ | ⟨core, hsg, hrc⟩
      · rw [hk0] at hk1
        exact absurd hk1 (by omega)
      · generalize hK : (sepTail (r.length + 1) r).1 = K at hk1 hsg
        generalize hT : (sepTail (r.length + 1) r).2 = T at hrest hrc
        have hcore2 : SepGroups (g ++ '|' :: core) (K + 1) :=
          SepGroups.cons hgrp hsg
        refine ⟨K + 1, g ++ '|' :: core, by omega, hcore2, ?_⟩
        have hs0' : (if s.head? = some '|' then s.tail else s) =
            (g ++ '|' :: core) ++ T := by
          rw [hs0, hrc, List.append_assoc, List.cons_append]
        by_cases hh : s.head? = some '|'
        · rw [if_pos hh] at hs0'
          rcases s with _ | ⟨c, t⟩
          · cases hh
          · have hc : c = '|' := Option.some.inj hh
            subst hc
            have ht : ('|' :: t).tail = t := rfl
            rw [ht] at hs0'
            rcases hrest with h1 | h1
            · rw [h1, List.append_nil] at hs0'
              exact Or.inr (Or.inl (by rw [hs0']))
            · rw [h1] at hs0'
              refine Or.inr (Or.inr (Or.inr ?_))
              simp [hs0', List.append_assoc]
        · rw [if_neg hh] at hs0'
          rcases hrest with h1 | h1
          · rw [h1, List.append_nil] at hs0'
            exact Or.inl hs0'
          · rw [h1] at hs0'
            exact Or.inr (Or.inr (Or.inl hs0'))
  · intro hs
    obtain ⟨k, core, hk2, hsg, hdisj⟩ := hs
    cases hsg with
    | @one g hg1 => exact absurd hk2 (by omega)
    | @cons g r' k' hg1 hsg1 =>
      have hk1 : 1 ≤ k' := by omega
      have hstep : ∀ (rest : List Char), rest = [] ∨ rest = ['|'] →
          ∀ (s' : List Char),
          (if s'.head? = some '|' then s'.tail else s') = (g ++ '|' :: r') ++ rest →
          sepMatch s' = true := by
        intro rest hr s' hs'
        unfold sepMatch
        rw [hs']
        have hassoc : (g ++ '|' :: r') ++ rest = g ++ ('|' :: (r' ++ rest)) := by
          rw [List.append_assoc, List.cons_append]
        have hgc2 : gConsume (g ++ ('|' :: (r' ++ rest))) = some (g, '|' :: (r' ++ rest)) :=
          gConsume_complete hg1
            (Or.inr (show ('|' :: (r' ++ rest)).head? = some '|' from rfl))
        rw [hassoc]
        simp only [hgc2]
        rw [sepTail_complete hsg1 rest (('|' :: (r' ++ rest)).length + 1) hr (by simp)]
        simp only [Bool.and_eq_true, Bool.or_eq_true, decide_eq_true_eq]
        refine ⟨hk1, ?_⟩
        rcases hr with rfl | rfl
        · exact Or.inl rfl
        · exact Or.inr rfl
      rcases hdisj with rfl | rfl | rfl | rfl
      · apply hstep [] (Or.inl rfl)
        rw [if_neg (dashGroup_head hg1 ('|' :: r')), List.append_nil]
      · apply hstep [] (Or.inl rfl)
        rw [List.append_nil]
        rfl
      · apply hstep ['|'] (Or.inr rfl)
        have hh : ¬ ((g ++ '|' :: r') ++ ['|']).head? = some '|' := by
          rw [List.append_assoc]
          exact dashGroup_head hg1 _
        rw [if_neg hh]
      · apply hstep ['|'] (Or.inr rfl)
        rfl

/-- C6 counterexample: in HeaderCandidate state the one-column separator
line (a single dash group bordered by pipes) is rejected: feed flushes
the buffered header back as prose instead of holding and entering
InTable. -/
theorem single_group_separator_cx :
    TableState.feed ⟨.HEADER, [String.toList "| x |"]⟩ (String.toList "|---|") =
      (.FLUSH_BACK [String.toList "| x |"], ⟨.NONE, []⟩) := by decide

/-- C6 amended: in HeaderCandidate state, feed appends the line and moves
to InTable returning Hold exactly when the stripped line consists of TWO
or more groups of dashes (each group optionally padded by whitespace)
separated by pipes, optionally bordered by one leading and one trailing
pipe; the code's separator regex requires a pipe-delimited second group,
so a single-group separator such as the one-column form is rejected and
flushed back as prose. -/
theorem separator_iff_two_groups (buf : List (List Char)) (line : List Char) :
    TableState.feed ⟨.HEADER, buf⟩ line = (.HOLD, ⟨.TABLE, buf ++ [line]⟩) ↔
      SepShape (pyStrip line) := by
  constructor
  · intro h
    by_cases hm : sepMatch (pyStrip line) = true
    · exact (sepMatch_iff _).mp hm
    · exfalso
      simp [TableState.feed, hm] at h
  · intro hs
    have hm := (sepMatch_iff _).mpr hs
    simp [TableState.feed, hm]

theorem joinChunks_append : ∀ (a b : List (List Char)),
    joinChunks (a ++ b) = joinChunks a ++ joinChunks b
  | [], _ => rfl
  | c :: a, b => by
    show c ++ joinChunks (a ++ b) = (c ++ joinChunks a) ++ joinChunks b
    rw [joinChunks_append a b, List.append_assoc]

theorem joinChunks_emitLine (cur : List (List Char)) :
    joinChunks (emitLine cur) = joinChunks cur := by
  unfold emitLine
  by_cases h : cur = []
  · rw [if_pos h, h]
  · rw [if_neg h]
    simp [joinChunks]

theorem expandTabsAux_no_tab : ∀ (col : Nat) (l : List Char), ¬ '\t' ∈ l →
    expandTabsAux col l = l
  | _, [], _ => rfl
  | col, c :: rest, h => by
    have hc : ¬ c = '\t' := fun e => h (by rw [e]; exact List.mem_cons_self _ _)
    have hr : ¬ '\t' ∈ rest := fun hm => h (List.mem_cons_of_mem _ hm)
    unfold expandTabsAux
    rw [if_neg hc]
    by_cases h2 : c = '\n' ∨ c = '\x0d'
    · rw [if_pos h2, expandTabsAux_no_tab 0 rest hr]
    · rw [if_neg h2, expandTabsAux_no_tab (col + 1) rest hr]

theorem splitChunksAux_join : ∀ (f : Nat) (l : List Char),
    joinChunks (splitChunksAux f l) = l
  | 0, l => by
    by_cases h : l = []
    · rw [splitChunksAux, if_pos h, h]
      rfl
    · rw [splitChunksAux, if_neg h]
      simp [joinChunks]
  | _ + 1, [] => rfl
  | f + 1, c :: rest => by
    show joinChunks ((c :: rest).takeWhile (fun x => pyWs x = pyWs c) ::
      splitChunksAux f ((c :: rest).dropWhile (fun x => pyWs x = pyWs c))) = c :: rest
    rw [joinChunks, splitChunksAux_join f _, List.takeWhile_append_dropWhile]

theorem splitChunks_join (l : List Char) : joinChunks (splitChunks l) = l :=
  splitChunksAux_join (l.length + 1) l

theorem wrapAux_join (w : Nat) : ∀ (f : Nat) (chunks : List (List Char)),
    joinChunks (wrapAux w f chunks) = joinChunks chunks
  | 0, chunks => joinChunks_emitLine chunks
  | _ + 1, [] => rfl
  | f + 1, x :: xs => by
    rcases hd : (x :: xs).drop (fitCount w 0 (x :: xs)) with _ | ⟨c, rest2⟩
    · simp only [wrapAux, hd]
      rw [joinChunks_emitLine]
      conv_rhs => rw [← List.take_append_drop (fitCount w 0 (x :: xs)) (x :: xs)]
      rw [hd, List.append_nil]
    · simp only [wrapAux, hd]
      by_cases hw : w < c.length
      · rw [if_pos hw]
        rw [joinChunks_append, joinChunks_emitLine, wrapAux_join w f _]
        conv_rhs => rw [← List.take_append_drop (fitCount w 0 (x :: xs)) (x :: xs)]
        rw [hd, joinChunks_append, joinChunks_append]
        simp only [joinChunks, List.append_nil, List.append_assoc]
        rw [← List.append_assoc (List.take _ c) (List.drop _ c) (joinChunks rest2),
          List.take_append_drop]
      · rw [if_neg hw]
        rw [joinChunks_append, joinChunks_emitLine, wrapAux_join w f _]
        conv_rhs => rw [← List.take_append_drop (fitCount w 0 (x :: xs)) (x :: xs)]
        rw [hd, joinChunks_append]

theorem textwrapWrap_join (w : Nat) (t : List Char) :
    joinChunks (textwrapWrap w t) = pyExpandTabs t := by
  unfold textwrapWrap
  rw [wrapAux_join, splitChunks_join]

/-- C5: Renderer.prose word-wraps the styled text without collapsing or
trimming any whitespace: the concatenation of the printed lines is the
styled text exactly (up to tab expansion, and verbatim when the styled
text holds no tab character, which covers multiple spaces and trailing
whitespace content across wrap boundaries), and an empty input line
yields one blank output line. -/
theorem prose_wrap_preserves (mode : StyleMode) (ansi : Bool) (w : Nat)
    (line : List Char) (out : List (List Char))
    (h : Renderer.prose mode ansi w line = some out) :
    (∃ t, Markdown.style mode ansi (pyRstrip line) = some t ∧
      joinChunks out = pyExpandTabs t ∧ (¬ '\t' ∈ t → joinChunks out = t)) ∧
    (line = [] → out = [[]]) := by
  unfold Renderer.prose at h
  rcases hsty : Markdown.style mode ansi (pyRstrip line) with _ | ⟨t⟩
  · rw [hsty] at h
    cases h
  · rw [hsty] at h
    have hout : out = fillLines w t := (Option.some.inj h).symm
    constructor
    · refine ⟨t, rfl, ?_, ?_⟩
      · rw [hout]
        unfold fillLines
        by_cases he : textwrapWrap w t = []
        · rw [if_pos he]
          have := textwrapWrap_join w t
          rw [he] at this
          rw [← this]
          rfl
        · rw [if_neg he]
          exact textwrapWrap_join w t
      · intro hnt
        rw [hout]
        unfold fillLines
        have hexp : pyExpandTabs t = t := expandTabsAux_no_tab 0 t hnt
        by_cases he : textwrapWrap w t = []
        · rw [if_pos he]
          have := textwrapWrap_join w t
          rw [he, hexp] at this
          rw [← this]
          rfl
        · rw [if_neg he]
          rw [textwrapWrap_join w t, hexp]
    · intro hl
      subst hl
      have ht0 : t = [] := by
        have h0 : Markdown.style mode ansi (pyRstrip []) = some [] := by
          cases mode <;> cases ansi <;> rfl
        rw [h0] at hsty
        exact (Option.some.inj hsty).symm
      rw [hout, ht0]
      rfl

/-- C5 witness: wrapping the concrete line at width 10 keeps every byte,
with the trailing space of the first output line preserved. -/
theorem prose_wrap_preserves_witness :
    ((∃ t, Markdown.style .plain false (pyRstrip (String.toList "hello world")) = some t ∧
      joinChunks [String.toList "hello ", String.toList "world"] = pyExpandTabs t ∧
      (¬ '\t' ∈ t →
        joinChunks [String.toList "hello ", String.toList "world"] = t)) ∧
    (String.toList "hello world" = [] →
      [String.toList "hello ", String.toList "world"] = [[]])) :=
  prose_wrap_preserves .plain false 10 (String.toList "hello world")
    [String.toList "hello ", String.toList "world"] (by decide)

end TermChat
